import Mathlib

/-!
Verification of the account transaction view of the Actual desktop client
(`packages/desktop-client/src/components/accounts/Account.jsx`) and of the
titlebar event registry (`packages/desktop-client/src/components/Titlebar.tsx`).

The JavaScript component state and its handlers are shallowly embedded as
Lean definitions.  Pure parts (sort-state transitions, balance eligibility,
batch-edit diffs, listener registries) are translated directly from the
source; collaborators that live outside the two source files (the query
engine, the data service's batch-update application, the `debounce`
library, the shared `deleteTransaction` transform) are modelled from the
specification and are marked as such in their doc comments.
-/

namespace ActualAccount

/-- A transaction row as consumed by `Account.jsx`: opaque id, account
reference, amount in minor currency units, cleared/reconciled flags and the
split-transaction structure (`is_parent` on the parent, `parent_id` on
children). -/
structure Transaction where
  id : String
  account : String
  amount : Int
  cleared : Bool
  reconciled : Bool
  is_parent : Bool := false
  parent_id : Option String := none
deriving DecidableEq, Repr

/-- A filter condition `{field, op, value, type}` with the optional
`customName` marking a synthetic non-persisted condition
(`onShowTransactions` uses it for "Selected transactions"). -/
structure Condition where
  field : String := ""
  op : String := ""
  value : String := ""
  type : String := ""
  customName : Option String := none
deriving DecidableEq, Repr

/-- The component's `this.state.sort`: initially the empty array `[]`
(constructor, account switch, `remove-sorting`, `toggle-balance`), and after
a header click an object `{field, ascDesc, prevField, prevAscDesc}` where
the two `prev` fields may be `undefined`.  `JS` `sort.length === 0` is true
exactly in the `empty` case (an object has no `length`). -/
inductive SortState
  | empty
  | active (field : String) (ascDesc : String)
      (prevField : Option String) (prevAscDesc : Option String)
deriving DecidableEq, Repr

/-- `onSort(headerClicked, ascDesc)` from `Account.jsx:1238`: clicking the
currently sorted column keeps `prevField`/`prevAscDesc` and only replaces
the direction; clicking another column captures the current
`field`/`ascDesc` as the new previous sort.  On the initial empty sort,
`this.state.sort.field` is `undefined`, so the comparison with the clicked
header fails and the new sort starts with no previous key. -/
def onSort (sort : SortState) (headerClicked : String) (ascDesc : String) :
    SortState :=
  match sort with
  | .empty => .active headerClicked ascDesc none none
  | .active f d pf pd =>
      if headerClicked == f then .active f ascDesc pf pd
      else .active headerClicked ascDesc (some f) (some d)

/-- `canCalculateBalance` from `Account.jsx:526`: the account must resolve,
search text must be empty, the condition list must be empty, and the sort
must be the initial empty array or have `field === 'date'` and
`ascDesc === 'desc'`.  The code never inspects `prevField`. -/
def canCalculateBalance (accountExists : Bool) (search : String)
    (filters : List Condition) (sort : SortState) : Bool :=
  accountExists && search == "" && filters.isEmpty &&
    (match sort with
     | .empty => true
     | .active f d _ _ => f == "date" && d == "desc")

/-- `calculateBalances` from `Account.jsx:541`: returns `null` when
`canCalculateBalance` fails, otherwise runs the running-sum query
(`$sumOver` over the current paged query with splits collapsed) and groups
the resulting `(id, balance)` rows by id.  The query engine is external;
its result is the `rows` argument, and the returned balance map is
represented as the association list of rows. -/
def calculateBalances (accountExists : Bool) (search : String)
    (filters : List Condition) (sort : SortState)
    (rows : List (String × Int)) : Option (List (String × Int)) :=
  if canCalculateBalance accountExists search filters sort then some rows
  else none

/-- The specification's eligibility wording for the balance map, for
comparison with the code's `canCalculateBalance`: the sort must be unset or
a single-key sort on the date field in descending order, which in the
component state means no retained previous sort key. -/
def specBalanceEligible (accountExists : Bool) (search : String)
    (filters : List Condition) (sort : SortState) : Bool :=
  accountExists && search == "" && filters.isEmpty &&
    (match sort with
     | .empty => true
     | .active f d pf _ => f == "date" && d == "desc" && pf == none)

/-- The code's eligibility test, unfolded to a proposition: the `prev` sort
fields are not inspected, only the primary `field`/`ascDesc` pair. -/
theorem canCalculateBalance_eq_true_iff (accountExists : Bool)
    (search : String) (filters : List Condition) (sort : SortState) :
    canCalculateBalance accountExists search filters sort = true ↔
      (accountExists = true ∧ search = "" ∧ filters = [] ∧
        (sort = SortState.empty ∨
          ∃ pf pd, sort = SortState.active "date" "desc" pf pd)) := by
  cases sort with
  | empty => simp [canCalculateBalance, and_assoc]
  | active f d pf pd =>
      simp only [canCalculateBalance, Bool.and_eq_true, beq_iff_eq,
        List.isEmpty_iff, SortState.active.injEq]
      constructor
      · rintro ⟨⟨⟨ha, hs⟩, hf⟩, hd, hdir⟩
        exact ⟨ha, hs, hf, Or.inr ⟨pf, pd, hd, hdir, rfl, rfl⟩⟩
      · rintro ⟨ha, hs, hf, h | ⟨pf', pd', hd, hdir, hpf, hpd⟩⟩
        · exact absurd h (by simp)
        · exact ⟨⟨⟨ha, hs⟩, hf⟩, hd, hdir⟩

/-- C1, counterexample: in the component state reached by clicking the
`payee` header and then the `date` header descending (search empty, no
filters, account resolvable), the sort is not a single-key date-descending
sort — it retains `payee` as the previous key — yet `calculateBalances`
still returns a balance map rather than `null`, because
`canCalculateBalance` never inspects `prevField`. -/
theorem c1_counterexample :
    onSort (onSort SortState.empty "payee" "asc") "date" "desc" =
      SortState.active "date" "desc" (some "payee") (some "asc")
    ∧ specBalanceEligible true "" []
        (SortState.active "date" "desc" (some "payee") (some "asc")) = false
    ∧ calculateBalances true "" []
        (SortState.active "date" "desc" (some "payee") (some "asc"))
        [("t1", 5)] = some [("t1", 5)] := by
  refine ⟨by decide, by decide, by decide⟩

/-- C1, amended: `calculateBalances` returns `null` exactly when the viewed
account does not exist, the search text is non-empty, the filter condition
list is non-empty, or the sort is set with a primary key other than the
date field in descending order.  A retained previous sort key does not
disqualify the balance map: only the primary `field`/`ascDesc` pair is
checked. -/
theorem c1_balance_map_null_iff (accountExists : Bool) (search : String)
    (filters : List Condition) (sort : SortState)
    (rows : List (String × Int)) :
    calculateBalances accountExists search filters sort rows = none ↔
      ¬(accountExists = true ∧ search = "" ∧ filters = [] ∧
        (sort = SortState.empty ∨
          ∃ pf pd, sort = SortState.active "date" "desc" pf pd)) := by
  have hiff := canCalculateBalance_eq_true_iff accountExists search filters
    sort
  unfold calculateBalances
  cases h : canCalculateBalance accountExists search filters sort with
  | false =>
      rw [h] at hiff
      simp only [Bool.false_eq_true, false_iff] at hiff
      simpa using hiff
  | true =>
      rw [h] at hiff
      simp only [true_iff] at hiff
      simp [hiff]

/-- C5: one level of sort history.  Clicking the currently-sorted column
only replaces the direction and leaves the previous sort untouched;
clicking a different column makes the current sort the new previous sort
(discarding the old previous sort, which appears nowhere in the result);
and after clicking three distinct columns the retained previous key is the
second column — the newest — never the first. -/
theorem c5_sort_one_level_history (s : SortState) (hc d : String) :
    ((∀ d0 pf pd, s = SortState.active hc d0 pf pd →
        onSort s hc d = SortState.active hc d pf pd) ∧
     (∀ f d0 pf pd, s = SortState.active f d0 pf pd → hc ≠ f →
        onSort s hc d = SortState.active hc d (some f) (some d0)) ∧
     (s = SortState.empty → onSort s hc d = SortState.active hc d none none))
    ∧
    (∀ a b c da dbv dc, a ≠ b → b ≠ c →
      onSort (onSort (onSort SortState.empty a da) b dbv) c dc =
        SortState.active c dc (some b) (some dbv)) := by
  refine ⟨⟨?_, ?_, ?_⟩, ?_⟩
  · rintro d0 pf pd rfl
    simp [onSort]
  · rintro f d0 pf pd rfl hne
    simp [onSort, hne]
  · rintro rfl
    simp [onSort]
  · intro a b c da dbv dc hab hbc
    have hba : b ≠ a := Ne.symm hab
    have hcb : c ≠ b := Ne.symm hbc
    simp [onSort, hba, hcb]

/-- Witness for `c5_sort_one_level_history`: three clicks on the distinct
columns `payee`, `amount`, `date` end with `amount` as the only retained
previous key. -/
theorem c5_sort_one_level_history_witness :
    onSort (onSort (onSort SortState.empty "payee" "asc") "amount" "desc")
        "date" "desc" =
      SortState.active "date" "desc" (some "amount") (some "desc") :=
  (c5_sort_one_level_history SortState.empty "x" "y").2 "payee" "amount"
    "date" "asc" "desc" "desc" (by decide) (by decide)

/-- Modelled from the spec: the data service's `transactions-batch-update`
operation applies each record of the submitted `updated` list to the stored
row carrying the same id, and the subsequent refetch re-reads the rows.
Rows without a matching update are unchanged. -/
def applyUpdates (updates : List Transaction) (db : List Transaction) :
    List Transaction :=
  db.map fun t => ((updates.find? fun u => u.id == t.id).getD t)

/-- Helper: a filter-mapped update list contains no record for an id that
does not occur in the generating rows. -/
theorem find?_filterMap_eq_none (g : Transaction → Option Transaction)
    (hg : ∀ t u, g t = some u → u.id = t.id)
    (l : List Transaction) (a : String) (ha : a ∉ l.map Transaction.id) :
    (l.filterMap g).find? (fun u => u.id == a) = none := by
  induction l with
  | nil => rfl
  | cons x xs ih =>
      simp only [List.map_cons, List.mem_cons, not_or] at ha
      obtain ⟨hax, haxs⟩ := ha
      cases hgx : g x with
      | none =>
          rw [List.filterMap_cons_none hgx]
          exact ih haxs
      | some u =>
          rw [List.filterMap_cons_some hgx]
          rw [List.find?_cons_of_neg]
          · exact ih haxs
          · have hu := hg x u hgx
            simp only [hu, beq_iff_eq]
            exact fun h => hax h.symm

/-- Helper: when row ids are distinct, applying an update list generated
row-by-row from the database is the same as transforming each row in
place. -/
theorem applyUpdates_filterMap (g : Transaction → Option Transaction)
    (hg : ∀ t u, g t = some u → u.id = t.id)
    (l : List Transaction) (hnd : (l.map Transaction.id).Nodup) :
    applyUpdates (l.filterMap g) l = l.map fun t => (g t).getD t := by
  induction l with
  | nil => rfl
  | cons x xs ih =>
      simp only [List.map_cons, List.nodup_cons] at hnd
      obtain ⟨hx, hnds⟩ := hnd
      have hhead :
          ((((x :: xs).filterMap g).find? fun u => u.id == x.id).getD x) =
          (g x).getD x := by
        cases hgx : g x with
        | none =>
            rw [List.filterMap_cons_none hgx,
              find?_filterMap_eq_none g hg xs x.id hx]
        | some u =>
            rw [List.filterMap_cons_some hgx, List.find?_cons_of_pos]
            simp [hg x u hgx]
      have htail : ∀ t ∈ xs,
          ((((x :: xs).filterMap g).find? fun u => u.id == t.id).getD t) =
          (((xs.filterMap g).find? fun u => u.id == t.id).getD t) := by
        intro t ht
        cases hgx : g x with
        | none => rw [List.filterMap_cons_none hgx]
        | some u =>
            rw [List.filterMap_cons_some hgx, List.find?_cons_of_neg]
            have hu := hg x u hgx
            have hxt : x.id ≠ t.id := by
              intro h
              exact hx (h ▸ List.mem_map_of_mem Transaction.id ht)
            simp [hu, hxt]
      show (((x :: xs).filterMap g).find? fun u => u.id == x.id).getD x ::
      (xs.map fun t =>
        (((x :: xs).filterMap g).find? fun u => u.id == t.id).getD t) = _
      rw [hhead, List.map_congr_left htail]
      rw [show (xs.map fun t =>
        (((xs.filterMap g).find? fun u => u.id == t.id).getD t)) =
        applyUpdates (xs.filterMap g) xs from rfl]
      rw [ih hnds, List.map_cons]

/-- The cleared sum computed by `onDoneReconciling` (Account.jsx:747): over
the fetched cleared transactions of the account, rows with `is_parent` are
skipped so split headers are not double counted. -/
def clearedSum (accountId : String) (db : List Transaction) : Int :=
  (db.filter fun t => t.cleared && t.account == accountId).foldl
    (fun s t => if t.is_parent then s else s + t.amount) 0

/-- The update list built by `lockTransactions` (Account.jsx:699): every
fetched row — cleared, not yet reconciled, of this account — is
re-submitted with `reconciled: true`.  The shared `updateTransaction`
transform's diff for a pure flag change is the changed record itself. -/
def lockUpdates (accountId : String) (db : List Transaction) :
    List Transaction :=
  db.filterMap fun t =>
    if t.cleared && !t.reconciled && t.account == accountId then
      some { t with reconciled := true }
    else none

/-- `lockTransactions` (Account.jsx:699): one `transactions-batch-update`
carrying `lockUpdates`, followed by a refetch. -/
def lockTransactions (accountId : String) (db : List Transaction) :
    List Transaction :=
  applyUpdates (lockUpdates accountId db) db

/-- `onDoneReconciling` (Account.jsx:735): fetch the cleared transactions
of the account, sum their amounts skipping split headers, and lock all
cleared transactions only when the target balance minus that sum is
exactly zero; otherwise this code path leaves the database untouched. -/
def onDoneReconciling (accountId : String) (reconcileAmount : Int)
    (db : List Transaction) : List Transaction :=
  if reconcileAmount - clearedSum accountId db == 0 then
    lockTransactions accountId db
  else db

/-- Helper: `lockTransactions` transforms each row in place when ids are
distinct. -/
theorem lockTransactions_eq_map (accountId : String) (db : List Transaction)
    (hnd : (db.map Transaction.id).Nodup) :
    lockTransactions accountId db = db.map fun t =>
      if t.cleared && !t.reconciled && t.account == accountId then
        { t with reconciled := true }
      else t := by
  unfold lockTransactions lockUpdates
  rw [applyUpdates_filterMap _ ?hg db hnd]
  case hg =>
    intro t u h
    by_cases hc : (t.cleared && !t.reconciled && t.account == accountId) =
        true
    · rw [if_pos hc] at h
      cases h
      rfl
    · rw [if_neg hc] at h
      cases h
  apply List.map_congr_left
  intro t _
  by_cases hc : (t.cleared && !t.reconciled && t.account == accountId) = true
  · rw [if_pos hc, if_pos hc]
    rfl
  · rw [if_neg hc, if_neg hc]
    rfl

/-- Helper: the fold in `clearedSum` is the sum of the amounts of the
cleared non-parent rows of the account. -/
theorem clearedSum_eq (accountId : String) (db : List Transaction) :
    clearedSum accountId db =
      ((db.filter fun t =>
          t.cleared && t.account == accountId && !t.is_parent).map
        Transaction.amount).sum := by
  suffices h : ∀ (l : List Transaction) (i : Int),
      (l.filter fun t => t.cleared && t.account == accountId).foldl
        (fun s t => if t.is_parent then s else s + t.amount) i =
      i + ((l.filter fun t =>
          t.cleared && t.account == accountId && !t.is_parent).map
        Transaction.amount).sum by
    simpa [clearedSum] using h db 0
  intro l
  induction l with
  | nil => intro i; simp
  | cons x xs ih =>
      intro i
      simp only [List.filter_cons]
      by_cases hc : (x.cleared && x.account == accountId) = true
      · by_cases hp : x.is_parent = true
        · simp [hc, hp, ih]
        · simp only [Bool.not_eq_true] at hp
          simp [hc, hp, ih]
          omega
      · have hc2 : (x.cleared && x.account == accountId && !x.is_parent) =
            false := by
          rcases Bool.eq_false_or_eq_true (x.cleared) with h1 | h1 <;>
            rcases Bool.eq_false_or_eq_true (x.account == accountId)
              with h2 | h2 <;>
            simp [h1, h2] at hc ⊢
        simp [hc, hc2, ih]

/-- C2: in the reconciliation flow the cleared sum is the sum over the
cleared transactions of the account skipping `is_parent` rows; when the
target balance minus that sum is zero, every cleared transaction of the
account ends up `reconciled = true` through the single batch update of
`lockTransactions`; when it is nonzero, this code path changes nothing. -/
theorem c2_reconciliation_flow (accountId : String) (reconcileAmount : Int)
    (db : List Transaction) (hnd : (db.map Transaction.id).Nodup) :
    (clearedSum accountId db =
      ((db.filter fun t =>
          t.cleared && t.account == accountId && !t.is_parent).map
        Transaction.amount).sum)
    ∧ (reconcileAmount - clearedSum accountId db = 0 →
        ∀ t ∈ onDoneReconciling accountId reconcileAmount db,
          t.cleared = true → t.account = accountId → t.reconciled = true)
    ∧ (reconcileAmount - clearedSum accountId db ≠ 0 →
        onDoneReconciling accountId reconcileAmount db = db) := by
  refine ⟨clearedSum_eq accountId db, ?_, ?_⟩
  · intro hz
    unfold onDoneReconciling
    rw [if_pos (by simpa using hz), lockTransactions_eq_map accountId db hnd]
    intro t ht hcl hacc
    simp only [List.mem_map] at ht
    obtain ⟨u, hu, rfl⟩ := ht
    by_cases hc : (u.cleared && !u.reconciled && u.account == accountId) =
        true
    · rw [if_pos hc]
    · rw [if_neg hc] at hcl hacc ⊢
      simp only [Bool.and_eq_true, Bool.not_eq_true', beq_iff_eq] at hc
      rcases Bool.eq_false_or_eq_true u.reconciled with hr | hr
      · exact hr
      · exact absurd ⟨⟨hcl, hr⟩, hacc⟩ hc
  · intro hne
    unfold onDoneReconciling
    rw [if_neg]
    simpa using hne

/-- Concrete database for the reconciliation witness, following the spec's
worked example with the `+20` adjustment already added: cleared amounts
`-50`, `-30`, `+20` sum to `-60`. -/
def reconcileExampleDb : List Transaction :=
  [{ id := "A", account := "acc", amount := -50, cleared := true,
     reconciled := false },
   { id := "B", account := "acc", amount := -30, cleared := true,
     reconciled := false },
   { id := "C", account := "acc", amount := 20, cleared := false,
     reconciled := false },
   { id := "adj", account := "acc", amount := 20, cleared := true,
     reconciled := false }]

/-- Witness for `c2_reconciliation_flow`: reconciling the example account
to target `-60` (difference zero) reconciles every cleared row. -/
theorem c2_reconciliation_flow_witness :
    ((reconcileExampleDb.map Transaction.id).Nodup)
    ∧ (∀ t ∈ onDoneReconciling "acc" (-60) reconcileExampleDb,
        t.cleared = true → t.account = "acc" → t.reconciled = true) :=
  ⟨by decide,
    (c2_reconciliation_flow "acc" (-60) reconcileExampleDb
      (by decide)).2.1 (by decide)⟩

/-- The `cleared` special case of `onBatchEdit` (Account.jsx:812): the
toggle takes no explicit target value — it is `true` exactly when some
fetched row is uncleared ("clear them if any are uncleared, otherwise
unclear them").  The fetched set is the grouped query result for the
requested ids, which also contains split siblings and parents. -/
def batchEditClearedValue (fetched : List Transaction) : Bool :=
  fetched.any fun t => !t.cleared

/-- The update list built by the `cleared` branch of `onBatchEdit`
(Account.jsx:819): reconciled rows are skipped, rows outside the requested
id set (present only as split siblings or parents) are skipped, and every
remaining row is re-submitted with `cleared` set to the toggle value. -/
def batchEditClearedUpdates (ids : List String)
    (fetched : List Transaction) : List Transaction :=
  fetched.filterMap fun t =>
    if t.reconciled then none
    else if !(ids.contains t.id) then none
    else some { t with cleared := batchEditClearedValue fetched }

/-- The batch cleared-toggle end to end: the updates are submitted in one
`transactions-batch-update` and applied to the fetched rows by id. -/
def onBatchEditCleared (ids : List String) (fetched : List Transaction) :
    List Transaction :=
  applyUpdates (batchEditClearedUpdates ids fetched) fetched

/-- Helper: the cleared toggle transforms each fetched row in place when
ids are distinct. -/
theorem onBatchEditCleared_eq_map (ids : List String)
    (fetched : List Transaction)
    (hnd : (fetched.map Transaction.id).Nodup) :
    onBatchEditCleared ids fetched = fetched.map fun t =>
      if t.reconciled then t
      else if !(ids.contains t.id) then t
      else { t with cleared := batchEditClearedValue fetched } := by
  unfold onBatchEditCleared batchEditClearedUpdates
  rw [applyUpdates_filterMap _ ?hg fetched hnd]
  case hg =>
    intro t u h
    by_cases hr : t.reconciled = true
    · rw [if_pos hr] at h
      cases h
    · rw [if_neg hr] at h
      by_cases hi : (!(ids.contains t.id)) = true
      · rw [if_pos hi] at h
        cases h
      · rw [if_neg hi] at h
        cases h
        rfl
  apply List.map_congr_left
  intro t _
  by_cases hr : t.reconciled = true
  · rw [if_pos hr, if_pos hr]
    rfl
  · rw [if_neg hr, if_neg hr]
    by_cases hi : (!(ids.contains t.id)) = true
    · rw [if_pos hi, if_pos hi]
      rfl
    · rw [if_neg hi, if_neg hi]
      rfl

/-- Helper: a mapped list agrees with the original at every position where
the mapping fixes the element. -/
theorem get_map_eq_self {f : Transaction → Transaction}
    {l : List Transaction} (i : Nat) (h1 : i < l.length)
    (h2 : i < (l.map f).length)
    (hf : f (l.get ⟨i, h1⟩) = l.get ⟨i, h1⟩) :
    (l.map f).get ⟨i, h2⟩ = l.get ⟨i, h1⟩ := by
  rw [List.get_map]
  exact hf

/-- C3: in the batch cleared-toggle, a fetched row that is uncleared and
requested forces every requested non-reconciled row to `cleared = true`;
when every fetched row is already cleared, every requested non-reconciled
row becomes uncleared; and positionally, rows that are reconciled or were
not requested come out of the batch unchanged. -/
theorem c3_cleared_toggle (ids : List String) (fetched : List Transaction)
    (hnd : (fetched.map Transaction.id).Nodup) :
    ((∃ u ∈ fetched, u.id ∈ ids ∧ u.cleared = false) →
      ∀ t ∈ onBatchEditCleared ids fetched,
        t.id ∈ ids → t.reconciled = false → t.cleared = true)
    ∧ ((∀ u ∈ fetched, u.cleared = true) →
      ∀ t ∈ onBatchEditCleared ids fetched,
        t.id ∈ ids → t.reconciled = false → t.cleared = false)
    ∧ ((onBatchEditCleared ids fetched).length = fetched.length)
    ∧ (∀ (i : Nat) (h1 : i < fetched.length)
        (h2 : i < (onBatchEditCleared ids fetched).length),
        ((fetched.get ⟨i, h1⟩).reconciled = true ∨
          (fetched.get ⟨i, h1⟩).id ∉ ids) →
        (onBatchEditCleared ids fetched).get ⟨i, h2⟩ =
          fetched.get ⟨i, h1⟩) := by
  rw [onBatchEditCleared_eq_map ids fetched hnd]
  have hval : ∀ (t : Transaction), t ∈ fetched → t.cleared = false →
      batchEditClearedValue fetched = true := by
    intro t ht hcl
    unfold batchEditClearedValue
    rw [List.any_eq_true]
    exact ⟨t, ht, by simp [hcl]⟩
  have hval2 : (∀ u ∈ fetched, u.cleared = true) →
      batchEditClearedValue fetched = false := by
    intro hall
    unfold batchEditClearedValue
    rw [List.any_eq_false]
    intro t ht
    simp [hall t ht]
  refine ⟨?_, ?_, by simp, ?_⟩
  · rintro ⟨u, hu, _, hucl⟩ t ht hid hrec
    simp only [List.mem_map] at ht
    obtain ⟨w, hw, rfl⟩ := ht
    by_cases hwr : w.reconciled = true
    · rw [if_pos hwr] at hrec
      rw [hwr] at hrec
      cases hrec
    · rw [if_neg hwr] at hid hrec ⊢
      by_cases hwi : (!(ids.contains w.id)) = true
      · rw [if_pos hwi] at hid
        simp only [Bool.not_eq_true', List.contains, List.elem_eq_mem,
          decide_eq_false_iff_not] at hwi
        exact absurd hid hwi
      · rw [if_neg hwi]
        exact hval u hu hucl
  · intro hall t ht hid hrec
    simp only [List.mem_map] at ht
    obtain ⟨w, hw, rfl⟩ := ht
    by_cases hwr : w.reconciled = true
    · rw [if_pos hwr] at hrec
      rw [hwr] at hrec
      cases hrec
    · rw [if_neg hwr] at hid hrec ⊢
      by_cases hwi : (!(ids.contains w.id)) = true
      · rw [if_pos hwi] at hid
        simp only [Bool.not_eq_true', List.contains, List.elem_eq_mem,
          decide_eq_false_iff_not] at hwi
        exact absurd hid hwi
      · rw [if_neg hwi]
        exact hval2 hall
  · intro i h1 h2 hcond
    apply get_map_eq_self i h1 h2
    rcases hcond with hrec | hid
    · rw [if_pos hrec]
    · have hcont : (!(ids.contains (fetched.get ⟨i, h1⟩).id)) = true := by
        simp only [Bool.not_eq_true', List.contains, List.elem_eq_mem,
          decide_eq_false_iff_not]
        exact hid
      by_cases hwr : (fetched.get ⟨i, h1⟩).reconciled = true
      · rw [if_pos hwr]
      · rw [if_neg hwr, if_pos hcont]

/-- Concrete fetched set for the cleared-toggle witness: the requested row
`a` is uncleared, the requested row `b` is cleared, row `c` is a fetched
sibling outside the requested set, and row `d` is reconciled. -/
def clearedToggleExample : List Transaction :=
  [{ id := "a", account := "acc", amount := 10, cleared := false,
     reconciled := false },
   { id := "b", account := "acc", amount := 20, cleared := true,
     reconciled := false },
   { id := "c", account := "acc", amount := 30, cleared := true,
     reconciled := false },
   { id := "d", account := "acc", amount := 40, cleared := true,
     reconciled := true }]

/-- Witness for `c3_cleared_toggle`: with the uncleared requested row `a`
present, every requested non-reconciled row comes out cleared. -/
theorem c3_cleared_toggle_witness :
    ((clearedToggleExample.map Transaction.id).Nodup)
    ∧ (∀ t ∈ onBatchEditCleared ["a", "b", "d"] clearedToggleExample,
        t.id ∈ ["a", "b", "d"] → t.reconciled = false →
        t.cleared = true) :=
  ⟨by decide,
    (c3_cleared_toggle ["a", "b", "d"] clearedToggleExample (by decide)).1
      ⟨{ id := "a", account := "acc", amount := 10, cleared := false,
         reconciled := false }, by decide, by decide, by decide⟩⟩

/-- The skip test of `onBatchDelete` (Account.jsx:956): a fetched row is
skipped when it is not in the requested id set, or when it is a child
whose `parent_id` is also in the requested id set. -/
def batchDeleteSkip (ids : List String) (t : Transaction) : Bool :=
  !(ids.contains t.id) ||
    (match t.parent_id with
     | some p => ids.contains p
     | none => false)

/-- Modelled from the spec: the shared `deleteTransaction` transform (not
under `src`); deleting a transaction also deletes the split children that
reference it through `parent_id` — parent deletion cascades.  The result
is the deleted-id list of the returned diff, computed against the current
in-memory row list. -/
def deleteTransactionDeleted (db : List Transaction) (id : String) :
    List String :=
  (db.filter fun t => t.id == id || t.parent_id == some id).map
    Transaction.id

/-- The accumulator threaded through `onBatchDelete`'s forEach: the
deleted ids collected so far, the in-memory row list with the earlier
diffs applied (`applyChanges`), and the ids on which `deleteTransaction`
was actually invoked (the independent deletes). -/
structure DeleteAcc where
  deleted : List String
  db : List Transaction
  calls : List String
deriving Repr

/-- One iteration of `onBatchDelete`'s forEach (Account.jsx:950): skipped
rows contribute nothing; any other row is deleted through
`deleteTransactionDeleted`, its diff is appended to the collected changes
and applied to the in-memory rows. -/
def batchDeleteStep (ids : List String) (acc : DeleteAcc)
    (t : Transaction) : DeleteAcc :=
  if batchDeleteSkip ids t then acc
  else
    let diff := deleteTransactionDeleted acc.db t.id
    { deleted := acc.deleted ++ diff,
      db := acc.db.filter fun u => !(diff.contains u.id),
      calls := acc.calls ++ [t.id] }

/-- `onBatchDelete` (Account.jsx:935) over an already-fetched grouped row
set: fold the per-row step over the fetched rows. -/
def onBatchDeleteRun (ids : List String) (fetched : List Transaction) :
    DeleteAcc :=
  fetched.foldl (batchDeleteStep ids) ⟨[], fetched, []⟩

/-- Helper: the collected deleted ids only grow along the fold. -/
theorem batchDeleteRun_deleted_mono (ids : List String)
    (l : List Transaction) (acc : DeleteAcc) (a : String)
    (ha : a ∈ acc.deleted) :
    a ∈ (l.foldl (batchDeleteStep ids) acc).deleted := by
  induction l generalizing acc with
  | nil => exact ha
  | cons x xs ih =>
      rw [List.foldl_cons]
      apply ih
      unfold batchDeleteStep
      by_cases h : batchDeleteSkip ids x = true
      · rw [if_pos h]
        exact ha
      · rw [if_neg h]
        exact List.mem_append_left _ ha

/-- Helper: the calls recorded by the fold are the ids of the non-skipped
rows, appended to the accumulator's calls. -/
theorem batchDeleteRun_calls (ids : List String) (l : List Transaction)
    (acc : DeleteAcc) :
    (l.foldl (batchDeleteStep ids) acc).calls =
      acc.calls ++
        ((l.filter fun t => !(batchDeleteSkip ids t)).map Transaction.id) := by
  induction l generalizing acc with
  | nil => simp
  | cons x xs ih =>
      rw [List.foldl_cons, List.filter_cons]
      by_cases h : batchDeleteSkip ids x = true
      · have h2 : (!(batchDeleteSkip ids x)) = false := by simp [h]
        rw [h2, if_neg (by simp)]
        rw [ih]
        congr 1
        unfold batchDeleteStep
        rw [if_pos h]
      · have h2 : (!(batchDeleteSkip ids x)) = true := by simp [h]
        rw [h2, if_pos rfl, ih]
        unfold batchDeleteStep
        rw [if_neg h]
        simp

/-- Helper: bridge between the boolean `List.contains` used by the code's
`Set.has` membership tests and propositional membership. -/
theorem contains_eq_true_iff (ids : List String) (a : String) :
    ids.contains a = true ↔ a ∈ ids :=
  List.elem_iff

/-- The skip test of `onBatchDelete`, unfolded to a proposition. -/
theorem batchDeleteSkip_eq_true_iff (ids : List String) (t : Transaction) :
    batchDeleteSkip ids t = true ↔
      (t.id ∉ ids ∨ ∃ p, t.parent_id = some p ∧ p ∈ ids) := by
  unfold batchDeleteSkip
  cases hp : t.parent_id with
  | none => simp [contains_eq_true_iff]
  | some p => simp [contains_eq_true_iff]

/-- Helper: when a child row is still present in the in-memory rows (or
already collected as deleted) and its un-skipped parent is yet to be
processed, the fold ends with the child's id among the deleted ids. -/
theorem batchDeleteRun_cascade (ids : List String) (t pr : Transaction)
    (hpid : t.parent_id = some pr.id)
    (hskip : batchDeleteSkip ids pr = false) :
    ∀ (l : List Transaction) (acc : DeleteAcc), pr ∈ l →
      (t.id ∈ acc.deleted ∨ t ∈ acc.db) →
      t.id ∈ (l.foldl (batchDeleteStep ids) acc).deleted := by
  intro l
  induction l with
  | nil =>
      intro acc h
      cases h
  | cons x xs ih =>
      intro acc hpr hinv
      rw [List.foldl_cons]
      have hinv' : t.id ∈ (batchDeleteStep ids acc x).deleted ∨
          t ∈ (batchDeleteStep ids acc x).db := by
        unfold batchDeleteStep
        by_cases h : batchDeleteSkip ids x = true
        · rw [if_pos h]
          exact hinv
        · rw [if_neg h]
          rcases hinv with hd | hdb
          · exact Or.inl (List.mem_append_left _ hd)
          · by_cases hdel : t.id ∈ deleteTransactionDeleted acc.db x.id
            · exact Or.inl (List.mem_append_right _ hdel)
            · refine Or.inr ?_
              rw [List.mem_filter]
              refine ⟨hdb, ?_⟩
              simp only [Bool.not_eq_true', List.contains, List.elem_eq_mem,
                decide_eq_false_iff_not]
              exact hdel
      rcases List.mem_cons.mp hpr with heq | hmem
      · subst heq
        have hstep : batchDeleteStep ids acc pr =
            { deleted := acc.deleted ++ deleteTransactionDeleted acc.db pr.id,
              db := acc.db.filter fun u =>
                !((deleteTransactionDeleted acc.db pr.id).contains u.id),
              calls := acc.calls ++ [pr.id] } := by
          unfold batchDeleteStep
          rw [if_neg (by simp [hskip])]
        apply batchDeleteRun_deleted_mono
        rw [hstep]
        rcases hinv with hd | hdb
        · exact List.mem_append_left _ hd
        · apply List.mem_append_right
          unfold deleteTransactionDeleted
          apply List.mem_map_of_mem
          rw [List.mem_filter]
          refine ⟨hdb, ?_⟩
          simp [hpid]
      · exact ih (batchDeleteStep ids acc x) hmem hinv'

/-- C4: in the batch delete, a fetched transaction that is outside the
requested id set, or is a child whose parent is also requested, is skipped
— `deleteTransaction` is never invoked on its id — and the requested
parent's own deletion cascades to the skipped child, whose id still ends
up in the collected deleted ids. -/
theorem c4_batch_delete (ids : List String) (fetched : List Transaction)
    (hnd : (fetched.map Transaction.id).Nodup) :
    (∀ t ∈ fetched,
      (t.id ∉ ids ∨ ∃ p, t.parent_id = some p ∧ p ∈ ids) →
      t.id ∉ (onBatchDeleteRun ids fetched).calls)
    ∧ (∀ t ∈ fetched, ∀ pr ∈ fetched,
        t.parent_id = some pr.id → pr.id ∈ ids → pr.parent_id = none →
        t.id ∈ (onBatchDeleteRun ids fetched).deleted) := by
  constructor
  · intro t ht hcond hmem
    unfold onBatchDeleteRun at hmem
    rw [batchDeleteRun_calls] at hmem
    simp only [List.nil_append, List.mem_map, List.mem_filter] at hmem
    obtain ⟨r, ⟨hr, hrskip⟩, hrid⟩ := hmem
    have hrt : r = t := List.inj_on_of_nodup_map hnd hr ht hrid
    subst hrt
    rw [Bool.not_eq_true', ← Bool.not_eq_true] at hrskip
    exact hrskip ((batchDeleteSkip_eq_true_iff ids r).mpr hcond)
  · intro t ht pr hpr hpid hprid hprparent
    have hskip : batchDeleteSkip ids pr = false := by
      unfold batchDeleteSkip
      rw [hprparent]
      simp [contains_eq_true_iff, hprid]
    exact batchDeleteRun_cascade ids t pr hpid hskip fetched
      ⟨[], fetched, []⟩ hpr (Or.inr ht)

/-- Concrete fetched set for the batch-delete witness: parent `p` with
children `c1` and `c2`; the requested set is the parent and one child. -/
def batchDeleteExample : List Transaction :=
  [{ id := "p", account := "acc", amount := 30, cleared := false,
     reconciled := false, is_parent := true },
   { id := "c1", account := "acc", amount := 10, cleared := false,
     reconciled := false, parent_id := some "p" },
   { id := "c2", account := "acc", amount := 20, cleared := false,
     reconciled := false, parent_id := some "p" }]

/-- Witness for `c4_batch_delete`: the requested child `c2` of the
requested parent `p` gets no independent delete but is still deleted by
the parent's cascade. -/
theorem c4_batch_delete_witness :
    ((batchDeleteExample.map Transaction.id).Nodup)
    ∧ "c2" ∉ (onBatchDeleteRun ["p", "c2"] batchDeleteExample).calls
    ∧ "c2" ∈ (onBatchDeleteRun ["p", "c2"] batchDeleteExample).deleted := by
  refine ⟨by decide, ?_, ?_⟩
  · exact (c4_batch_delete ["p", "c2"] batchDeleteExample (by decide)).1
      { id := "c2", account := "acc", amount := 20, cleared := false,
        reconciled := false, parent_id := some "p" }
      (by decide) (Or.inr ⟨"p", rfl, by decide⟩)
  · exact (c4_batch_delete ["p", "c2"] batchDeleteExample (by decide)).2
      { id := "c2", account := "acc", amount := 20, cleared := false,
        reconciled := false, parent_id := some "p" }
      (by decide)
      { id := "p", account := "acc", amount := 30, cleared := false,
        reconciled := false, is_parent := true }
      (by decide) rfl (by decide) rfl

/-- The reconciled-rows probe shared by the batch operations
(Account.jsx:874 and Account.jsx:988): the query for the requested ids
restricted to `reconciled: true` returns rows exactly when some requested
row is reconciled. -/
def anyReconciledInSelection (ids : List String) (db : List Transaction) :
    Bool :=
  db.any fun t => ids.contains t.id && t.reconciled

/-- The batch operations of the account view that carry a reconciled-row
confirmation decision. -/
inductive BatchOperation
  | edit (name : String)
  | delete
  | duplicate
deriving DecidableEq, Repr

/-- Whether a batch operation submits only after the explicit
`confirm-transaction-edit` modal: `onBatchEdit` (Account.jsx:868) gates
amount, payee, account and date edits when the reconciled probe is
non-empty, routes `cleared` directly to `onChange`, and other field edits
to the `edit-field` modal without the gate; `onBatchDelete` and
`onBatchDuplicate` always gate through `checkForReconciledTransactions`
(Account.jsx:987). -/
def requiresConfirmation (op : BatchOperation) (ids : List String)
    (db : List Transaction) : Bool :=
  match op with
  | .edit name =>
      if name == "amount" || name == "payee" || name == "account" ||
          name == "date" then
        anyReconciledInSelection ids db
      else false
  | .delete => anyReconciledInSelection ids db
  | .duplicate => anyReconciledInSelection ids db

/-- Helper: the reconciled probe unfolded to a proposition. -/
theorem anyReconciledInSelection_eq_true_iff (ids : List String)
    (db : List Transaction) :
    anyReconciledInSelection ids db = true ↔
      ∃ t ∈ db, t.id ∈ ids ∧ t.reconciled = true := by
  unfold anyReconciledInSelection
  rw [List.any_eq_true]
  constructor
  · rintro ⟨t, ht, hc⟩
    simp only [Bool.and_eq_true] at hc
    exact ⟨t, ht, (contains_eq_true_iff ids t.id).mp hc.1, hc.2⟩
  · rintro ⟨t, ht, hid, hrec⟩
    exact ⟨t, ht, by
      simp only [Bool.and_eq_true]
      exact ⟨(contains_eq_true_iff ids t.id).mpr hid, hrec⟩⟩

/-- C8: a batch amount, payee, account or date edit, a batch delete, or a
batch duplicate targeting at least one reconciled row submits only after
explicit confirmation; when no targeted row is reconciled the gate is off
for every operation; and the clearing-status toggle never gates. -/
theorem c8_reconciled_confirmation_gate (op : BatchOperation)
    (ids : List String) (db : List Transaction) :
    ((∃ t ∈ db, t.id ∈ ids ∧ t.reconciled = true) →
      (op = .edit "amount" ∨ op = .edit "payee" ∨ op = .edit "account" ∨
        op = .edit "date" ∨ op = .delete ∨ op = .duplicate) →
      requiresConfirmation op ids db = true)
    ∧ ((∀ t ∈ db, t.id ∈ ids → t.reconciled = false) →
      requiresConfirmation op ids db = false)
    ∧ (requiresConfirmation (.edit "cleared") ids db = false) := by
  have hnone : (∀ t ∈ db, t.id ∈ ids → t.reconciled = false) →
      anyReconciledInSelection ids db = false := by
    intro hall
    rw [← Bool.not_eq_true, anyReconciledInSelection_eq_true_iff]
    rintro ⟨t, ht, hid, hrec⟩
    rw [hall t ht hid] at hrec
    cases hrec
  refine ⟨?_, ?_, by simp [requiresConfirmation]⟩
  · intro hex hop
    have hany := (anyReconciledInSelection_eq_true_iff ids db).mpr hex
    rcases hop with rfl | rfl | rfl | rfl | rfl | rfl <;>
      simp [requiresConfirmation, hany]
  · intro hall
    cases op with
    | edit name =>
        show (if (name == "amount" || name == "payee" ||
            name == "account" || name == "date") = true then
          anyReconciledInSelection ids db else false) = false
        by_cases h : (name == "amount" || name == "payee" ||
            name == "account" || name == "date") = true
        · rw [if_pos h]
          exact hnone hall
        · rw [if_neg h]
    | delete => exact hnone hall
    | duplicate => exact hnone hall

/-- Witness for `c8_reconciled_confirmation_gate`: deleting a selection
containing the reconciled row `d` gates behind confirmation. -/
theorem c8_reconciled_confirmation_gate_witness :
    requiresConfirmation BatchOperation.delete ["d"] clearedToggleExample =
      true :=
  (c8_reconciled_confirmation_gate BatchOperation.delete ["d"]
      clearedToggleExample).1
    ⟨{ id := "d", account := "acc", amount := 40, cleared := true,
       reconciled := true }, by decide, by decide, rfl⟩
    (Or.inr (Or.inr (Or.inr (Or.inr (Or.inl rfl)))))

/-- The runner-lifecycle events of the account view: `updateQuery`
(Account.jsx:361) replaces `this.paged`, `onSearch` (Account.jsx:436)
unsubscribes the current runner ahead of the debounced rebuild, and
`componentWillUnmount` (Account.jsx:311) unsubscribes it for good. -/
inductive PagedOp
  | updateQuery
  | searchUnsubscribe
  | unmount
deriving DecidableEq, Repr

/-- The lifecycle state: `paged` is the `this.paged` reference (runner
instances are numbered in creation order by `nextId`), and `live` is the
set of runners created so far whose `unsubscribe` has not been called —
the runners still delivering callbacks. -/
structure PagedState where
  paged : Option Nat
  live : List Nat
  nextId : Nat
deriving DecidableEq, Repr

/-- The state on mount: `this.paged = null`, no runner exists. -/
def initialPagedState : PagedState := ⟨none, [], 0⟩

/-- One lifecycle event.  `updateQuery` first unsubscribes the existing
runner (`if (this.paged) this.paged.unsubscribe()`) and only then
subscribes its replacement through `pagedQuery`; `searchUnsubscribe` and
`unmount` unsubscribe the current runner and create nothing. -/
def pagedStep (s : PagedState) : PagedOp → PagedState
  | .updateQuery =>
      let live := match s.paged with
        | some r => s.live.filter fun x => x ≠ r
        | none => s.live
      ⟨some s.nextId, live ++ [s.nextId], s.nextId + 1⟩
  | .searchUnsubscribe =>
      match s.paged with
      | some r => { s with live := s.live.filter fun x => x ≠ r }
      | none => s
  | .unmount =>
      match s.paged with
      | some r => { s with live := s.live.filter fun x => x ≠ r }
      | none => s

/-- A view's lifecycle from mount: fold the events over the initial
state. -/
def runPaged (ops : List PagedOp) : PagedState :=
  ops.foldl pagedStep initialPagedState

/-- The lifecycle invariant: the only live runner, if any, is the current
`this.paged`, and every runner reference is below the creation counter. -/
def PagedInv (s : PagedState) : Prop :=
  (s.live = [] ∨ ∃ r, s.paged = some r ∧ s.live = [r]) ∧
    (∀ r, s.paged = some r → r < s.nextId)

/-- Helper: the lifecycle invariant is preserved by every event. -/
theorem pagedStep_inv (s : PagedState) (hs : PagedInv s) (op : PagedOp) :
    PagedInv (pagedStep s op) := by
  obtain ⟨hlive, hbound⟩ := hs
  cases op with
  | updateQuery =>
      constructor
      · refine Or.inr ⟨s.nextId, rfl, ?_⟩
        rcases hlive with h | ⟨r, hr, h⟩
        · cases hp : s.paged <;> simp [pagedStep, hp, h]
        · simp [pagedStep, hr, h]
      · intro r hr
        cases hr
        simp [pagedStep]
  | searchUnsubscribe =>
      cases hp : s.paged with
      | none => exact ⟨by simpa [pagedStep, hp] using hlive,
          by simpa [pagedStep, hp] using hbound⟩
      | some r =>
          constructor
          · refine Or.inl ?_
            rcases hlive with h | ⟨r', hr', h⟩
            · simp [pagedStep, hp, h]
            · rw [hp] at hr'
              cases hr'
              simp [pagedStep, hp, h]
          · intro r' hr'
            simp only [pagedStep, hp] at hr' ⊢
            exact hbound r' (by rw [hp]; exact hr')
  | unmount =>
      cases hp : s.paged with
      | none => exact ⟨by simpa [pagedStep, hp] using hlive,
          by simpa [pagedStep, hp] using hbound⟩
      | some r =>
          constructor
          · refine Or.inl ?_
            rcases hlive with h | ⟨r', hr', h⟩
            · simp [pagedStep, hp, h]
            · rw [hp] at hr'
              cases hr'
              simp [pagedStep, hp, h]
          · intro r' hr'
            simp only [pagedStep, hp] at hr' ⊢
            exact hbound r' (by rw [hp]; exact hr')

/-- Helper: every reachable lifecycle state satisfies the invariant. -/
theorem runPaged_inv (ops : List PagedOp) : PagedInv (runPaged ops) := by
  suffices h : ∀ (l : List PagedOp) (s : PagedState), PagedInv s →
      PagedInv (l.foldl pagedStep s) by
    exact h ops initialPagedState ⟨Or.inl rfl, by intro r hr; cases hr⟩
  intro l
  induction l with
  | nil => intro s hs; exact hs
  | cons x xs ih =>
      intro s hs
      exact ih (pagedStep s x) (pagedStep_inv s hs x)

/-- C7: in every reachable view state at most one runner is live; a query
recomputation unsubscribes the current runner — which never reappears in
the live set — before subscribing exactly its replacement; and unmounting
leaves no live runner. -/
theorem c7_single_live_runner (ops : List PagedOp) :
    ((runPaged ops).live.length ≤ 1)
    ∧ (∀ r, (runPaged ops).paged = some r →
        r ∉ (pagedStep (runPaged ops) PagedOp.updateQuery).live)
    ∧ ((pagedStep (runPaged ops) PagedOp.updateQuery).live =
        [(runPaged ops).nextId])
    ∧ ((pagedStep (runPaged ops) PagedOp.unmount).live = []) := by
  obtain ⟨hlive, hbound⟩ := runPaged_inv ops
  set s := runPaged ops with hsdef
  refine ⟨?_, ?_, ?_, ?_⟩
  · rcases hlive with h | ⟨r, _, h⟩ <;> simp [h]
  · intro r hr
    have hrb := hbound r hr
    rcases hlive with h | ⟨r', hr', h⟩
    · simp only [pagedStep, hr, h, List.filter_nil, List.nil_append,
        List.mem_singleton]
      omega
    · rw [hr] at hr'
      cases hr'
      simp only [pagedStep, hr, h]
      intro hmem
      rcases List.mem_append.mp hmem with hm | hm
      · rcases List.mem_filter.mp hm with ⟨_, hne⟩
        simp at hne
      · rw [List.mem_singleton] at hm
        omega
  · rcases hlive with h | ⟨r, hr, h⟩
    · cases hp : s.paged <;> simp [pagedStep, hp, h]
    · simp [pagedStep, hr, h]
  · rcases hlive with h | ⟨r, hr, h⟩
    · cases hp : s.paged <;> simp [pagedStep, hp, h]
    · simp [pagedStep, hr, h]

/-- Witness for `c7_single_live_runner`: after a mount fetch, a search
unsubscribe and two query recomputations, only runner 2 is live and a
recomputation retires it. -/
theorem c7_single_live_runner_witness :
    ((runPaged [PagedOp.updateQuery, PagedOp.searchUnsubscribe,
        PagedOp.updateQuery, PagedOp.updateQuery]).live.length ≤ 1)
    ∧ (2 ∉ (pagedStep (runPaged [PagedOp.updateQuery,
        PagedOp.searchUnsubscribe, PagedOp.updateQuery,
        PagedOp.updateQuery]) PagedOp.updateQuery).live) :=
  ⟨(c7_single_live_runner [PagedOp.updateQuery, PagedOp.searchUnsubscribe,
      PagedOp.updateQuery, PagedOp.updateQuery]).1,
   (c7_single_live_runner [PagedOp.updateQuery, PagedOp.searchUnsubscribe,
      PagedOp.updateQuery, PagedOp.updateQuery]).2.1 2 (by decide)⟩

end ActualAccount

namespace ActualTitlebar

/-- The message delivered through the titlebar event registry
(`Titlebar.tsx:49`): currently only the budget-type switch payload. -/
structure TitlebarMessage where
  newBudgetType : String
deriving DecidableEq, Repr

/-- `subscribe(listener)` of `TitlebarProvider` (Titlebar.tsx:76) pushes
the listener onto `listeners.current`.  Listener functions are compared by
reference in the source; each is modelled by an opaque numeric
identity. -/
def subscribe (reg : List Nat) (l : Nat) : List Nat := reg ++ [l]

/-- The disposer returned by `subscribe` (Titlebar.tsx:78): replaces the
registry by its sublist of entries different from the listener
(`filter(func => func !== listener)`). -/
def dispose (reg : List Nat) (l : Nat) : List Nat :=
  reg.filter fun f => f ≠ l

/-- `sendEvent(msg)` (Titlebar.tsx:72): `listeners.current.forEach(func =>
func(msg))` — the resulting invocation sequence pairs each registration
with the message, in registry order. -/
def sendEvent (reg : List Nat) (msg : TitlebarMessage) :
    List (Nat × TitlebarMessage) :=
  reg.map fun l => (l, msg)

/-- A registry built by a sequence of subscriptions starting from the
initial `useRef<Listener[]>([])`. -/
def buildRegistry (subs : List Nat) : List Nat :=
  subs.foldl subscribe []

/-- Helper: subscribing in sequence accumulates the listeners in
subscription order. -/
theorem buildRegistry_eq (subs : List Nat) : buildRegistry subs = subs := by
  suffices h : ∀ (l acc : List Nat), l.foldl subscribe acc = acc ++ l by
    simpa [buildRegistry] using h subs []
  intro l
  induction l with
  | nil => intro acc; simp
  | cons x xs ih =>
      intro acc
      rw [List.foldl_cons]
      rw [ih (subscribe acc x)]
      simp [subscribe]

/-- Helper: each invocation of `sendEvent` carries the sent message. -/
theorem sendEvent_count (reg : List Nat) (msg : TitlebarMessage) (f : Nat) :
    (sendEvent reg msg).count (f, msg) = reg.count f := by
  induction reg with
  | nil => rfl
  | cons x xs ih =>
      simp only [sendEvent, List.map_cons, List.count_cons] at *
      rw [ih]
      congr 1
      by_cases h : x = f
      · simp [h]
      · simp [h, Prod.ext_iff]

/-- C10: `sendEvent` invokes each registration exactly once with the sent
message, in subscription order; the disposer removes every registration of
its listener and none of any other listener; and after the disposer runs,
`sendEvent` never invokes that listener. -/
theorem c10_titlebar_registry (reg subs : List Nat) (l : Nat)
    (msg : TitlebarMessage) :
    ((sendEvent (buildRegistry subs) msg).map Prod.fst = subs)
    ∧ (∀ f, (sendEvent reg msg).count (f, msg) = reg.count f)
    ∧ (∀ p ∈ sendEvent reg msg, p.2 = msg)
    ∧ (l ∉ dispose reg l)
    ∧ (∀ f, f ≠ l → (dispose reg l).count f = reg.count f)
    ∧ (∀ p ∈ sendEvent (dispose reg l) msg, p.1 ≠ l) := by
  refine ⟨?_, fun f => sendEvent_count reg msg f, ?_, ?_, ?_, ?_⟩
  · rw [buildRegistry_eq]
    simp only [sendEvent, List.map_map]
    exact List.map_id subs
  · intro p hp
    simp only [sendEvent, List.mem_map] at hp
    obtain ⟨a, _, rfl⟩ := hp
    rfl
  · intro hmem
    rcases List.mem_filter.mp hmem with ⟨_, hne⟩
    simp at hne
  · intro f hf
    unfold dispose
    induction reg with
    | nil => rfl
    | cons x xs ih =>
        rw [List.filter_cons]
        by_cases h : x = l
        · subst h
          rw [if_neg (by simp)]
          rw [List.count_cons]
          rw [ih]
          have : (x == f) = false := by
            simp only [beq_eq_false_iff_ne, ne_eq]
            exact fun hxf => hf hxf.symm
          simp [this]
        · rw [if_pos (by simp [h])]
          rw [List.count_cons, List.count_cons, ih]
  · intro p hp
    simp only [sendEvent, List.mem_map] at hp
    obtain ⟨a, ha, rfl⟩ := hp
    rcases List.mem_filter.mp ha with ⟨_, hne⟩
    simpa using hne

/-- Witness for `c10_titlebar_registry`: after disposing listener `1`, the
registry `[0, 1, 2, 1]` keeps both registrations of `2`-free listeners and
`sendEvent` no longer reaches `1`. -/
theorem c10_titlebar_registry_witness :
    ((dispose [0, 1, 2, 1] 1).count 0 = ([0, 1, 2, 1] : List Nat).count 0)
    ∧ (∀ p ∈ sendEvent (dispose [0, 1, 2, 1] 1) ⟨"report"⟩, p.1 ≠ 1) :=
  ⟨(c10_titlebar_registry [0, 1, 2, 1] [] 1 ⟨"report"⟩).2.2.2.2.1 0
      (by decide),
   (c10_titlebar_registry [0, 1, 2, 1] [] 1 ⟨"report"⟩).2.2.2.2.2⟩

end ActualTitlebar

namespace ActualAccount

/-- A saved-filter payload as handled by `onReloadSavedFilter` and
`onApplyFilter`: persisted id, status, combinator and condition list. -/
structure SavedFilter where
  id : String := ""
  status : Option String := none
  conditionsOp : String := "and"
  conditions : List Condition := []
deriving DecidableEq, Repr

/-- The slice of component state consulted by the filter/sort/search
mutation handlers. -/
structure FilterSortState where
  search : String
  filters : List Condition
  conditionsOp : String
  sort : SortState
deriving DecidableEq, Repr

/-- The observable effects the mutation handlers produce:
`queryRecomputed` for each `updateQuery`/`fetchTransactions` call, and
`searchRun` for each `onSearch` re-trigger (the debounced re-execution of
the search against the then-current query). -/
inductive UIAction
  | queryRecomputed
  | searchRun (text : String)
deriving DecidableEq, Repr

/-- Trace of `applyFilters` (Account.jsx:1163): both branches recompute
the query — non-empty conditions rebuild `currentQuery` and call
`updateQuery`, empty conditions reset the transaction state and call
`fetchTransactions` — and a non-empty sort reapplies itself through
`applySort`, recomputing once more. -/
def applyFiltersTrace (s : FilterSortState) : List UIAction :=
  [UIAction.queryRecomputed] ++
    (if s.sort = SortState.empty then [] else [UIAction.queryRecomputed])

/-- The conditional search re-trigger shared by the mutation handlers:
`if (this.state.search !== '') this.onSearch(this.state.search)`. -/
def searchRetrigger (s : FilterSortState) : List UIAction :=
  if s.search == "" then [] else [UIAction.searchRun s.search]

/-- Trace of `applySort` when invoked from `onSort` (Account.jsx:1197):
with active filters it reapplies them (recursing into `applyFilters`),
then rebuilds the ordered query and calls `updateQuery`. -/
def applySortTrace (s : FilterSortState) : List UIAction :=
  (if s.filters.isEmpty then [] else applyFiltersTrace s) ++
    [UIAction.queryRecomputed]

/-- The argument of `onApplyFilter` (Account.jsx:1121): either a plain
condition or a saved-filter payload carrying its own `conditions` list. -/
inductive ApplyFilterArg
  | plain (c : Condition)
  | saved (sf : SavedFilter)
deriving DecidableEq, Repr

/-- The mutations of the filter conditions, combinator or sort reachable
from the account header.  `reloadSavedFilter` models `onReloadSavedFilter`
(Account.jsx:1063) on a saved filter whose `status` is truthy — the path
that reapplies the saved conditions. -/
inductive Mutation
  | condOpChange (value : String) (conds : List Condition)
  | applyFilter (arg : ApplyFilterArg)
  | reloadSavedFilter (sf : SavedFilter)
  | updateFilter (oldc newc : Condition)
  | deleteFilter (c : Condition)
  | clearFilters
  | sortClick (header direction : String)
deriving DecidableEq, Repr

/-- The action trace of each mutation handler
(Account.jsx:1054-1271): `onCondOpChange`, `onApplyFilter`,
`onUpdateFilter`, `onDeleteFilter` and `onClearFilters` call
`applyFilters` and finish with the conditional search re-trigger;
`onSort` calls `applySort` and finishes the same way; `onReloadSavedFilter`
calls `applyFilters` when the saved filter has a status, and contains no
search re-trigger at all. -/
def mutationTrace (m : Mutation) (s : FilterSortState) : List UIAction :=
  match m with
  | .condOpChange _ _ => applyFiltersTrace s ++ searchRetrigger s
  | .applyFilter _ => applyFiltersTrace s ++ searchRetrigger s
  | .reloadSavedFilter sf =>
      if sf.status.isSome then applyFiltersTrace s else []
  | .updateFilter _ _ => applyFiltersTrace s ++ searchRetrigger s
  | .deleteFilter _ => applyFiltersTrace s ++ searchRetrigger s
  | .clearFilters => applyFiltersTrace s ++ searchRetrigger s
  | .sortClick _ _ => applySortTrace s ++ searchRetrigger s

/-- C6, counterexample: the claim fails on `onReloadSavedFilter` — at the
state with active search `rent` and no filters, reloading the saved filter
`f1` recomputes the query from the saved conditions but never re-runs the
search. -/
theorem c6_counterexample :
    ¬ (∀ (m : Mutation) (s : FilterSortState),
        s.search ≠ "" →
        UIAction.queryRecomputed ∈ mutationTrace m s →
        UIAction.searchRun s.search ∈ mutationTrace m s) := by
  intro h
  have hc := h
    (Mutation.reloadSavedFilter
      { id := "f1", status := some "saved", conditionsOp := "or",
        conditions := [({ field := "amount", op := "is", value := "50",
                          type := "number" } : Condition)] })
    { search := "rent", filters := [], conditionsOp := "and",
      sort := SortState.empty }
    (by decide) (by decide)
  revert hc
  decide

/-- C6 (amended): every mutation of the filter conditions, combinator or
sort other than the saved-filter reload re-runs the active search — the
trace contains the `searchRun` of the current text — whenever the search
text is non-empty. -/
theorem c6_search_rerun_on_mutation (m : Mutation) (s : FilterSortState)
    (hnm : ∀ sf, m ≠ Mutation.reloadSavedFilter sf)
    (hs : s.search ≠ "") :
    UIAction.searchRun s.search ∈ mutationTrace m s := by
  have hret : UIAction.searchRun s.search ∈ searchRetrigger s := by
    unfold searchRetrigger
    rw [if_neg (by simpa using hs)]
    exact List.mem_singleton.mpr rfl
  cases m with
  | reloadSavedFilter sf => exact absurd rfl (hnm sf)
  | condOpChange v c => exact List.mem_append_right _ hret
  | applyFilter a => exact List.mem_append_right _ hret
  | updateFilter o n => exact List.mem_append_right _ hret
  | deleteFilter c => exact List.mem_append_right _ hret
  | clearFilters => exact List.mem_append_right _ hret
  | sortClick h d => exact List.mem_append_right _ hret

/-- Witness for `c6_search_rerun_on_mutation`: clearing the filters while
searching for `rent` re-runs the search. -/
theorem c6_search_rerun_on_mutation_witness :
    UIAction.searchRun "rent" ∈ mutationTrace Mutation.clearFilters
      { search := "rent", filters := [], conditionsOp := "and",
        sort := SortState.empty } :=
  c6_search_rerun_on_mutation Mutation.clearFilters
    { search := "rent", filters := [], conditionsOp := "and",
      sort := SortState.empty }
    (fun sf h => Mutation.noConfusion h) (by decide)

end ActualAccount

namespace ActualAccount

/-- The query descriptors built by the account view through the external
query builder: the per-account root query, a filtered query
(`rootQuery.filter` under the combinator key), an ordered query
(`orderBy`), and the dedicated search query that
`makeTransactionSearchQuery` (external to these sources) layers over the
current query. -/
inductive Query
  | transactionsRoot (accountId : String)
  | filtered (base : Query) (conditionsOpKey : String)
  | ordered (base : Query) (field direction : String)
  | searchOver (base : Query) (text : String) (dateFormat : String)
deriving DecidableEq, Repr

/-- The body of `onSearchDone` (Account.jsx:441), sans debounce: the query
handed to `updateQuery` with its `isFiltered` flag.  An empty search
restores `this.currentQuery` unchanged, keeping the flag of the active
filter conditions; a non-empty search wraps the current query in the
search query and is always treated as filtered. -/
def onSearchDoneQuery (currentQuery : Query) (filtersNonempty : Bool)
    (search : String) (dateFormat : String) : Query × Bool :=
  if search == "" then (currentQuery, filtersNonempty)
  else (Query.searchOver currentQuery search dateFormat, true)

/-- Modelled from the spec: the `debounce` library wrapping `onSearchDone`
with a 150ms trailing-edge wait — a call fires, 150ms later, only when no
further call arrives within those 150ms; superseded calls never fire. -/
def debounceFires (times : List Nat) : List Nat :=
  times.filter fun t => !(times.any fun u => t < u && u ≤ t + 150)

/-- The search text in `this.state.search` at a given instant: the value
of the latest `onSearch` call not after that instant (calls are listed in
time order). -/
def searchValueAt (calls : List (Nat × String)) (init : String)
    (time : Nat) : String :=
  calls.foldl (fun acc c => if c.1 ≤ time then c.2 else acc) init

/-- The debounced executions of `onSearchDone`: one per surviving fire,
each reading the search text at its fire instant, 150ms after the
triggering call. -/
def executedQueries (calls : List (Nat × String)) (init : String)
    (currentQuery : Query) (filtersNonempty : Bool) (dateFormat : String) :
    List (Query × Bool) :=
  (debounceFires (calls.map Prod.fst)).map fun t =>
    onSearchDoneQuery currentQuery filtersNonempty
      (searchValueAt calls init (t + 150)) dateFormat

/-- Helper: filtering a duplicate-free list for one of its members leaves
exactly that member. -/
theorem filter_beq_singleton (l : List Nat) (a : Nat) (hnd : l.Nodup)
    (ha : a ∈ l) : (l.filter fun t => t == a) = [a] := by
  induction l with
  | nil => cases ha
  | cons x xs ih =>
      rw [List.nodup_cons] at hnd
      rw [List.filter_cons]
      rcases List.mem_cons.mp ha with rfl | hmem
      · rw [if_pos (by simp)]
        have hnil : (xs.filter fun t => t == a) = [] := by
          rw [List.filter_eq_nil_iff]
          intro t ht
          simp only [beq_iff_eq]
          intro h
          exact hnd.1 (h ▸ ht)
        rw [hnil]
      · have hxa : (x == a) = false := by
          simp only [beq_eq_false_iff_ne, ne_eq]
          intro h
          exact hnd.1 (h ▸ hmem)
        rw [if_neg (by simp [hxa])]
        exact ih hnd.2 hmem

/-- Helper: in a burst whose calls all happen within 150ms of the last
one, only the last call survives the trailing-edge debounce. -/
theorem debounceFires_burst (times : List Nat) (M : Nat) (hM : M ∈ times)
    (hmax : ∀ t ∈ times, t ≤ M) (hspan : ∀ t ∈ times, M ≤ t + 150)
    (hnd : times.Nodup) : debounceFires times = [M] := by
  unfold debounceFires
  have hpred : ∀ t ∈ times,
      (!(times.any fun u => t < u && u ≤ t + 150)) = (t == M) := by
    intro t ht
    by_cases h : t = M
    · subst h
      have hany : (times.any fun u => t < u && u ≤ t + 150) = false := by
        rw [List.any_eq_false]
        intro u hu
        have := hmax u hu
        simp only [Bool.and_eq_true, decide_eq_true_eq, not_and]
        intro hlt
        omega
      simp [hany]
    · have htM : t < M := lt_of_le_of_ne (hmax t ht) h
      have hspant := hspan t ht
      have hany : (times.any fun u => t < u && u ≤ t + 150) = true := by
        rw [List.any_eq_true]
        refine ⟨M, hM, ?_⟩
        simp only [Bool.and_eq_true, decide_eq_true_eq]
        omega
      simp [hany, h]
  rw [List.filter_congr hpred]
  exact filter_beq_singleton times M hnd hM

/-- Helper: at any instant past the last call, the state holds the last
call's value. -/
theorem searchValueAt_last (cs : List (Nat × String)) (M : Nat) (v : String)
    (init : String) :
    searchValueAt (cs ++ [(M, v)]) init (M + 150) = v := by
  unfold searchValueAt
  rw [List.foldl_append]
  simp

/-- C9: for a burst of `onSearch` calls all within the 150ms trailing-edge
window of the final call, exactly one debounced execution survives — the
final call's — and it runs `onSearchDone` on the final search string; an
empty final string hands the pre-search `currentQuery` back to
`updateQuery` with the filters flag intact instead of building a search
query. -/
theorem c9_debounced_search (cs : List (Nat × String)) (M : Nat)
    (v : String) (init : String) (currentQuery : Query)
    (filtersNonempty : Bool) (dateFormat : String)
    (hmax : ∀ c ∈ cs ++ [(M, v)], c.1 ≤ M)
    (hspan : ∀ c ∈ cs ++ [(M, v)], M ≤ c.1 + 150)
    (hnd : ((cs ++ [(M, v)]).map Prod.fst).Nodup) :
    (debounceFires ((cs ++ [(M, v)]).map Prod.fst) = [M])
    ∧ (executedQueries (cs ++ [(M, v)]) init currentQuery filtersNonempty
        dateFormat =
        [onSearchDoneQuery currentQuery filtersNonempty v dateFormat])
    ∧ (onSearchDoneQuery currentQuery filtersNonempty "" dateFormat =
        (currentQuery, filtersNonempty)) := by
  have hM : M ∈ (cs ++ [(M, v)]).map Prod.fst := by
    rw [List.mem_map]
    exact ⟨(M, v), List.mem_append_right _ (List.mem_singleton.mpr rfl), rfl⟩
  have hmax' : ∀ t ∈ (cs ++ [(M, v)]).map Prod.fst, t ≤ M := by
    intro t ht
    rw [List.mem_map] at ht
    obtain ⟨c, hc, rfl⟩ := ht
    exact hmax c hc
  have hspan' : ∀ t ∈ (cs ++ [(M, v)]).map Prod.fst, M ≤ t + 150 := by
    intro t ht
    rw [List.mem_map] at ht
    obtain ⟨c, hc, rfl⟩ := ht
    exact hspan c hc
  have hfires := debounceFires_burst _ M hM hmax' hspan' hnd
  refine ⟨hfires, ?_, by rfl⟩
  unfold executedQueries
  rw [hfires, List.map_singleton, searchValueAt_last]

/-- Witness for `c9_debounced_search`: five keystrokes within 100ms ending
in `rent` produce exactly one execution, querying for `rent`. -/
theorem c9_debounced_search_witness :
    executedQueries
      [(0, "r"), (25, "re"), (50, "ren"), (75, "rens"), (100, "rent")] ""
      (Query.transactionsRoot "acc") false "MM/dd/yyyy" =
      [onSearchDoneQuery (Query.transactionsRoot "acc") false "rent"
        "MM/dd/yyyy"] :=
  (c9_debounced_search [(0, "r"), (25, "re"), (50, "ren"), (75, "rens")]
    100 "rent" "" (Query.transactionsRoot "acc") false "MM/dd/yyyy"
    (by decide) (by decide) (by decide)).2.1

end ActualAccount
